import Mathlib

/-!
Verification of the ragpipe retrieval pipeline against its source:
the section-based chunker (`ragpipe/services/section_chunker.py`), the
lexical relevance scorer, the diverse chunk selector, the retrieval
quality gate and the query orchestrator (`ragpipe/services/rag_service.py`).

Modelling conventions:
- Python strings are `List Char` (ASCII fragment); Python floats are `ℚ`.
- `str.strip`, `str.split`, `str.find`, `str.isupper`, `in` (substring)
  and the regular-expression prefix matching used by the chunker are
  translated into executable Lean functions below.
-/

namespace Ragpipe

/-- Python whitespace (the characters stripped by `str.strip` and matched
by the regex class backslash-s in ASCII mode). -/
def pyIsSpace (c : Char) : Bool :=
  c = ' ' || c = '\t' || c = '\n' || c = '\r' || c = '\x0b' || c = '\x0c'

/-- Python `str.strip()`: drop whitespace from both ends. -/
def pyStrip (l : List Char) : List Char :=
  ((l.dropWhile pyIsSpace).reverse.dropWhile pyIsSpace).reverse

/-- Python `str.lower()` (ASCII). -/
def pyLower (l : List Char) : List Char := l.map Char.toLower

/-- Python `needle in hay` (substring containment). -/
def isSubstring (needle : List Char) (hay : List Char) : Bool :=
  match hay with
  | [] => needle.isEmpty
  | _ :: t => needle.isPrefixOf hay || isSubstring needle t

/-- Python `str.isupper()` (ASCII): at least one cased character and no
lowercase character. -/
def pyIsUpperStr (l : List Char) : Bool :=
  l.any Char.isAlpha && l.all (fun c => !(c.isLower))

/-- Python `line.endswith(cs)` for a tuple of single characters; false on
the empty string. -/
def pyEndsWithAny (l : List Char) (cs : List Char) : Bool :=
  match l.getLast? with
  | some c => cs.contains c
  | none => false

/-- The common lowercase function words checked by
`SectionChunker._is_likely_header`. -/
def functionWords : List (List Char) :=
  (["the", "and", "or", "but", "in", "on", "at", "to", "for"]).map String.toList

/-- `SectionChunker._is_likely_header` (section_chunker.py lines 126-155). -/
def isLikelyHeader (l : List Char) : Bool :=
  if l.length < 3 then false
  else if 100 < l.length then false
  else if pyEndsWithAny l ['.', '!', '?'] then false
  else if functionWords.any (fun w => isSubstring w (pyLower l)) then
    l.length < 30 && pyIsUpperStr l
  else true

theorem pyEndsWithAny_eq_true (l : List Char) (cs : List Char) :
    pyEndsWithAny l cs = true ↔ ∃ c, l.getLast? = some c ∧ c ∈ cs := by
  unfold pyEndsWithAny
  cases h : l.getLast? with
  | none => simp
  | some c => simp [List.elem_iff]

/-- C8: `_is_likely_header` returns false exactly when the line is shorter
than 3 characters, longer than 100 characters, ends in sentence
punctuation, or contains a common lowercase function word — except that a
line containing such a word is still accepted when it is shorter than 30
characters and fully uppercase; all other lines are accepted. -/
theorem is_likely_header_iff (l : List Char) :
    isLikelyHeader l = false ↔
      (l.length < 3 ∨ 100 < l.length ∨
       (∃ c, l.getLast? = some c ∧ (c = '.' ∨ c = '!' ∨ c = '?')) ∨
       ((∃ w ∈ functionWords, isSubstring w (pyLower l) = true) ∧
          ¬ (l.length < 30 ∧ pyIsUpperStr l = true))) := by
  unfold isLikelyHeader
  split_ifs with h1 h2 h3 h4
  · simp [h1]
  · simp [h1, h2]
  · rw [pyEndsWithAny_eq_true] at h3
    obtain ⟨c, hc, hmem⟩ := h3
    simp only [List.mem_cons, List.not_mem_nil, or_false] at hmem
    simp only [eq_self_iff_true, true_iff]
    exact Or.inr (Or.inr (Or.inl ⟨c, hc, hmem⟩))
  · have h3' : ¬ ∃ c, l.getLast? = some c ∧ (c = '.' ∨ c = '!' ∨ c = '?') := by
      intro ⟨c, hc, hmem⟩
      exact h3 ((pyEndsWithAny_eq_true l _).2 ⟨c, hc, by simpa using hmem⟩)
    have h4' : ∃ w ∈ functionWords, isSubstring w (pyLower l) = true := by
      simpa [List.any_eq_true] using h4
    constructor
    · intro hfalse
      refine Or.inr (Or.inr (Or.inr ⟨h4', ?_⟩))
      intro ⟨hlen, hup⟩
      simp [hlen, hup] at hfalse
    · intro hcases
      rcases hcases with h | h | h | h
      · omega
      · omega
      · exact absurd h h3'
      · have := h.2
        by_cases hlen : l.length < 30
        · by_cases hup : pyIsUpperStr l = true
          · exact absurd ⟨hlen, hup⟩ this
          · simp [hup]
        · simp [hlen]
  · have h3' : ¬ ∃ c, l.getLast? = some c ∧ (c = '.' ∨ c = '!' ∨ c = '?') := by
      intro ⟨c, hc, hmem⟩
      exact h3 ((pyEndsWithAny_eq_true l _).2 ⟨c, hc, by simpa using hmem⟩)
    have h4' : ¬ ∃ w ∈ functionWords, isSubstring w (pyLower l) = true := by
      simpa [List.any_eq_true] using h4
    simp only [h1, h2, false_or]
    constructor
    · intro hfalse; cases hfalse
    · intro hcases
      rcases hcases with h | h
      · exact absurd h h3'
      · exact absurd h.1 h4'

/-! ## Retrieval quality gate and orchestrator (rag_service.py) -/

/-- A document record. Only identity matters for the orchestrator-level
claims, so the remaining fields of the source `Paper` model are abstracted
into a single identifier. -/
structure Paper where
  pid : Nat
deriving DecidableEq

/-- One vector-store match: a similarity score plus the paper its metadata
reconstructs. -/
structure VMatch where
  score : ℚ
  paper : Paper
deriving DecidableEq

/-- Python `sum(scores)`. -/
def listSum (l : List ℚ) : ℚ := l.foldl (· + ·) 0

/-- Python `max(scores)`; only applied to non-empty lists in the source
(`max` on an empty list raises there). -/
def listMax : List ℚ → ℚ
  | [] => 0
  | x :: t => t.foldl max x

/-- The `quality_metrics` record built by `assess_search_quality`. -/
structure QualityMetrics where
  avg_similarity : ℚ
  max_similarity : ℚ
  num_results : Nat
  threshold_met : Bool
deriving DecidableEq

/-- Second component of the gate's return value: either the string sentinel
for an empty match set or the metrics record. -/
inductive AssessInfo where
  | noResults
  | metrics (m : QualityMetrics)
deriving DecidableEq

/-- Gate threshold `Settings.DEFAULT_SIMILARITY_THRESHOLD` (settings.py). -/
def DEFAULT_SIMILARITY_THRESHOLD : ℚ := 8/10

/-- Gate threshold `Settings.MIN_AVERAGE_SCORE` (settings.py). -/
def MIN_AVERAGE_SCORE : ℚ := 3/4

/-- Gate threshold `Settings.MIN_RESULTS_COUNT` (settings.py). -/
def MIN_RESULTS_COUNT : Nat := 2

/-- `RAGService.assess_search_quality` (rag_service.py lines 17-43).
The two thresholds the source reads from `Settings` are the parameters
`minAvg` and `minCount`; the caller-supplied `threshold` defaults to
`DEFAULT_SIMILARITY_THRESHOLD` in the source. -/
def assessSearchQuality (ms : List VMatch) (threshold minAvg : ℚ)
    (minCount : Nat) : Bool × AssessInfo :=
  match ms with
  | [] => (false, AssessInfo.noResults)
  | _ =>
    let scores := ms.map VMatch.score
    let avg := listSum scores / (scores.length : ℚ)
    let mx := listMax scores
    (decide (threshold ≤ mx) && decide (minAvg ≤ avg) &&
       decide (minCount ≤ ms.length),
     AssessInfo.metrics ⟨avg, mx, ms.length, decide (threshold ≤ mx)⟩)

/-- `VectorService.query_response_to_papers`: one reconstructed paper per
vector-store match. -/
def queryResponseToPapers (ms : List VMatch) : List Paper :=
  ms.map VMatch.paper

/-- `RAGService.rag_query` (rag_service.py lines 45-66). The external
collaborators are abstracted into inputs: `ms` is the vector-store
search response and `processedPapers` is the result of the arXiv fetch
followed by `pdf_service.process_papers` (empty when every document in the
batch failed). The vector-store upsert on the fetch path is a side effect
with no influence on the returned list. -/
def ragQuery (ms : List VMatch) (processedPapers : List Paper)
    (threshold minAvg : ℚ) (minCount : Nat) : List Paper :=
  if (assessSearchQuality ms threshold minAvg minCount).1 then
    queryResponseToPapers ms
  else processedPapers

/-- C2: the gate is sufficient iff the maximum score, average score and
result count all meet their thresholds; an empty match set yields the
`noResults` sentinel with no metrics record; and the worked example with
max 0.9, average 0.3, count 3 against thresholds (0.8, 0.5, 2) is judged
insufficient. -/
theorem assess_search_quality_spec :
    (∀ (ms : List VMatch) (threshold minAvg : ℚ) (minCount : Nat),
        ms ≠ [] →
        ((assessSearchQuality ms threshold minAvg minCount).1 = true ↔
          (threshold ≤ listMax (ms.map VMatch.score) ∧
           minAvg ≤ listSum (ms.map VMatch.score) / (ms.length : ℚ) ∧
           minCount ≤ ms.length))) ∧
    (∀ (threshold minAvg : ℚ) (minCount : Nat),
        assessSearchQuality [] threshold minAvg minCount =
          (false, AssessInfo.noResults)) ∧
    (assessSearchQuality [⟨9/10, ⟨0⟩⟩, ⟨0, ⟨1⟩⟩, ⟨0, ⟨2⟩⟩]
        (8/10) (1/2) 2).1 = false := by
  refine ⟨?_, ?_, ?_⟩
  · intro ms threshold minAvg minCount hne
    match ms with
    | [] => exact absurd rfl hne
    | m :: rest =>
      simp [assessSearchQuality, and_assoc]
  · intro threshold minAvg minCount
    rfl
  · norm_num [assessSearchQuality, listSum, listMax]

/-- Witness for the hypotheses of `assess_search_quality_spec`. -/
theorem assess_search_quality_witness :
    (([⟨1, ⟨0⟩⟩] : List VMatch) ≠ []) ∧
    ((assessSearchQuality [⟨1, ⟨0⟩⟩] (8/10) (3/4) 2).1 = true ↔
      ((8 : ℚ)/10 ≤ listMax (([⟨1, ⟨0⟩⟩] : List VMatch).map VMatch.score) ∧
       (3 : ℚ)/4 ≤ listSum (([⟨1, ⟨0⟩⟩] : List VMatch).map VMatch.score) /
         ((([⟨1, ⟨0⟩⟩] : List VMatch).length : ℚ)) ∧
       2 ≤ ([⟨1, ⟨0⟩⟩] : List VMatch).length)) :=
  ⟨by decide, assess_search_quality_spec.1 _ _ _ _ (by decide)⟩

/-- C7 counterexample: a non-empty match set judged insufficient together
with an all-failed fetch batch makes `rag_query` return the empty list —
not the papers reconstructed from the original match set, which here would
be non-empty. -/
theorem rag_query_counterexample :
    ragQuery [⟨1/10, ⟨0⟩⟩] [] (8/10) (3/4) 2 = [] ∧
    queryResponseToPapers [⟨1/10, ⟨0⟩⟩] ≠ [] ∧
    ([⟨1/10, ⟨0⟩⟩] : List VMatch) ≠ [] := by
  refine ⟨?_, by simp [queryResponseToPapers], by simp⟩
  norm_num [ragQuery, assessSearchQuality, listSum, listMax]

/-- C7 amended: when the gate judges the match set insufficient, `rag_query`
returns the processed-papers list unchanged — in particular the empty list
when every document in the fetch batch failed; it never falls back to the
original vector-store matches. -/
theorem rag_query_insufficient_returns_processed
    (ms : List VMatch) (processedPapers : List Paper)
    (threshold minAvg : ℚ) (minCount : Nat)
    (h : (assessSearchQuality ms threshold minAvg minCount).1 = false) :
    ragQuery ms processedPapers threshold minAvg minCount =
      processedPapers := by
  simp [ragQuery, h]

/-- Witness for the hypothesis of
`rag_query_insufficient_returns_processed`. -/
theorem rag_query_insufficient_witness :
    (assessSearchQuality [⟨(1 : ℚ)/10, ⟨0⟩⟩] (8/10) (3/4) 2).1 = false ∧
    ragQuery [⟨(1 : ℚ)/10, ⟨0⟩⟩] [⟨5⟩] (8/10) (3/4) 2 = [⟨5⟩] := by
  have h : (assessSearchQuality [⟨(1 : ℚ)/10, ⟨0⟩⟩] (8/10) (3/4) 2).1 = false := by
    norm_num [assessSearchQuality, listSum, listMax]
  exact ⟨h, rag_query_insufficient_returns_processed _ _ _ _ _ h⟩

/-! ## Diverse top-chunk selector (rag_service.py) -/

/-- A scored chunk record as consumed by `_select_diverse_top_chunks`: its
paper identifier, its relevance score, and a tag abstracting the remaining
fields of the chunk dict (Python's `c not in selected` compares whole
records, so two records may agree on paper and score yet differ). -/
structure SChunk where
  paper_id : Nat
  relevance_score : ℚ
  tag : Nat
deriving DecidableEq

/-- The descending-score comparison of the source's
`sort(key=lambda x: x['relevance_score'], reverse=True)`. Python's sort is
stable; insertion sort with this relation reproduces it. -/
def scoreGe (a b : SChunk) : Prop := b.relevance_score ≤ a.relevance_score

instance : DecidableRel scoreGe := fun a b =>
  inferInstanceAs (Decidable (b.relevance_score ≤ a.relevance_score))

instance : IsTotal SChunk scoreGe :=
  ⟨fun a b => le_total b.relevance_score a.relevance_score⟩

instance : IsTrans SChunk scoreGe := ⟨fun _ _ _ h1 h2 => le_trans h2 h1⟩

/-- First pass of `_select_diverse_top_chunks`: walk the scored list in
order, keeping at most one chunk per unseen paper id and stopping once
`maxChunks` chunks are selected. `sel` and `seen` accumulate the loop
state `selected_chunks` and `paper_ids_seen`. -/
def firstPassAux (maxChunks : Nat) :
    List SChunk → List SChunk → List Nat → List SChunk
  | [], sel, _ => sel
  | c :: rest, sel, seen =>
    if maxChunks ≤ sel.length then sel
    else if c.paper_id ∈ seen then firstPassAux maxChunks rest sel seen
    else firstPassAux maxChunks rest (sel ++ [c]) (seen ++ [c.paper_id])

/-- `RAGService._select_diverse_top_chunks` (rag_service.py lines
124-164): short input is returned unchanged; otherwise a diversity pass,
then a fill pass over the not-yet-selected chunks, then a stable
descending re-sort. -/
def selectDiverseTopChunks (scored : List SChunk) (maxChunks : Nat) :
    List SChunk :=
  if scored.length ≤ maxChunks then scored
  else
    let sel := firstPassAux maxChunks scored [] []
    let remaining := maxChunks - sel.length
    let sel2 :=
      if 0 < remaining then
        sel ++ (scored.filter (fun c => !(decide (c ∈ sel)))).take remaining
      else sel
    List.insertionSort scoreGe sel2

theorem firstPassAux_eq_append (maxChunks : Nat) :
    ∀ (l sel : List SChunk) (seen : List Nat),
      ∃ l', List.Sublist l' l ∧ firstPassAux maxChunks l sel seen = sel ++ l' := by
  intro l
  induction l with
  | nil =>
    intro sel seen
    exact ⟨[], List.Sublist.refl _, by simp [firstPassAux]⟩
  | cons c rest ih =>
    intro sel seen
    by_cases hbreak : maxChunks ≤ sel.length
    · exact ⟨[], by simp, by simp [firstPassAux, hbreak]⟩
    · by_cases hseen : c.paper_id ∈ seen
      · obtain ⟨l', hsub, heq⟩ := ih sel seen
        exact ⟨l', hsub.cons c, by simpa [firstPassAux, hbreak, hseen] using heq⟩
      · obtain ⟨l', hsub, heq⟩ := ih (sel ++ [c]) (seen ++ [c.paper_id])
        refine ⟨c :: l', hsub.cons₂ c, ?_⟩
        simp only [firstPassAux, if_neg hbreak, if_neg hseen, heq]
        simp

theorem firstPassAux_length_le (maxChunks : Nat) :
    ∀ (l sel : List SChunk) (seen : List Nat), sel.length ≤ maxChunks →
      (firstPassAux maxChunks l sel seen).length ≤ maxChunks := by
  intro l
  induction l with
  | nil => intro sel seen h; simpa [firstPassAux] using h
  | cons c rest ih =>
    intro sel seen h
    by_cases hbreak : maxChunks ≤ sel.length
    · simpa [firstPassAux, hbreak] using h
    · by_cases hseen : c.paper_id ∈ seen
      · simpa [firstPassAux, hbreak, hseen] using ih sel seen h
      · have hlt : sel.length < maxChunks := lt_of_not_le hbreak
        have : (sel ++ [c]).length ≤ maxChunks := by
          simpa using hlt
        simpa [firstPassAux, hbreak, hseen] using
          ih (sel ++ [c]) (seen ++ [c.paper_id]) this

theorem filter_mem_of_sublist :
    ∀ {sel scored : List SChunk}, List.Sublist sel scored → scored.Nodup →
      scored.filter (fun c => decide (c ∈ sel)) = sel := by
  intro sel scored hsub
  induction hsub with
  | slnil => intro _; rfl
  | @cons l₁ l₂ a hsub ih =>
    intro hnd
    have ⟨ha, hl₂⟩ := List.nodup_cons.1 hnd
    have hna : a ∉ l₁ := fun hmem => ha (hsub.subset hmem)
    simp only [List.filter_cons, decide_eq_true_eq, if_neg hna]
    exact ih hl₂
  | @cons₂ l₁ l₂ a hsub ih =>
    intro hnd
    have ⟨ha, hl₂⟩ := List.nodup_cons.1 hnd
    simp only [List.filter_cons]
    rw [if_pos (by simp : decide (a ∈ a :: l₁) = true)]
    have hcong : l₂.filter (fun c => decide (c ∈ a :: l₁)) =
        l₂.filter (fun c => decide (c ∈ l₁)) := by
      refine List.filter_congr ?_
      intro x hx
      have hxa : x ≠ a := fun hxa => ha (hxa ▸ hx)
      simp [List.mem_cons, hxa]
    rw [hcong, ih hl₂]

/-- C9: for pairwise-distinct scored chunks, the selector returns exactly
`min n k` chunks, all drawn from the input without repetition, and a short
input (`n ≤ k`) is returned unchanged without re-sorting. -/
theorem select_diverse_top_chunks_cardinality
    (scored : List SChunk) (k : Nat) (hnd : scored.Nodup) :
    (selectDiverseTopChunks scored k).length = min scored.length k ∧
    (∀ c ∈ selectDiverseTopChunks scored k, c ∈ scored) ∧
    (selectDiverseTopChunks scored k).Nodup ∧
    (scored.length ≤ k → selectDiverseTopChunks scored k = scored) := by
  by_cases hshort : scored.length ≤ k
  · have heq : selectDiverseTopChunks scored k = scored := by
      simp [selectDiverseTopChunks, hshort]
    refine ⟨by simp [heq, Nat.min_eq_left hshort], by simp [heq], by simp [heq, hnd],
      fun _ => heq⟩
  · have hmin : min scored.length k = k := Nat.min_eq_right (le_of_not_le hshort)
    obtain ⟨l', hsub, heq⟩ := firstPassAux_eq_append k scored [] []
    have hsel : firstPassAux k scored [] [] = l' := by simpa using heq
    have hlen_le : l'.length ≤ k := by
      have := firstPassAux_length_le k scored [] [] (by simp)
      rwa [hsel] at this
    have hl'nd : l'.Nodup := hsub.nodup hnd
    have hfilter : scored.filter (fun c => decide (c ∈ l')) = l' :=
      filter_mem_of_sublist hsub hnd
    have hsplit : scored.length =
        (scored.filter (fun c => decide (c ∈ l'))).length +
        (scored.filter (fun c => !(decide (c ∈ l')))).length :=
      List.length_eq_length_filter_add _
    have hflen : (scored.filter (fun c => !(decide (c ∈ l')))).length =
        scored.length - l'.length := by
      rw [hfilter] at hsplit
      omega
    set rest := (scored.filter (fun c => !(decide (c ∈ l')))).take (k - l'.length)
      with hrest
    have hrestlen : rest.length = k - l'.length := by
      rw [hrest, List.length_take, hflen]
      have : k ≤ scored.length := le_of_not_le hshort
      omega
    have hsel2 : selectDiverseTopChunks scored k =
        List.insertionSort scoreGe (if 0 < k - l'.length then l' ++ rest else l') := by
      simp only [selectDiverseTopChunks, if_neg hshort, hsel, hrest]
    have hcore : (if 0 < k - l'.length then l' ++ rest else l').length = k ∧
        (∀ c, c ∈ (if 0 < k - l'.length then l' ++ rest else l') → c ∈ scored) ∧
        (if 0 < k - l'.length then l' ++ rest else l').Nodup := by
      by_cases hpos : 0 < k - l'.length
      · have hrestsub : ∀ c ∈ rest, c ∈ scored ∧ c ∉ l' := by
          intro c hc
          have hcf : c ∈ scored.filter (fun c => !(decide (c ∈ l'))) :=
            List.mem_of_mem_take hc
          have := List.of_mem_filter hcf
          exact ⟨List.mem_of_mem_filter hcf, by simpa using this⟩
        refine ⟨by simp [hpos, hrestlen]; omega, ?_, ?_⟩
        · intro c hc
          rw [if_pos hpos] at hc
          rcases List.mem_append.1 hc with hc | hc
          · exact hsub.subset hc
          · exact (hrestsub c hc).1
        · rw [if_pos hpos]
          refine List.Nodup.append hl'nd ?_ ?_
          · exact (hnd.filter _).sublist (List.take_sublist _ _)
          · intro c hc hcr
            exact (hrestsub c hcr).2 hc
      · have hkeq : l'.length = k := by omega
        refine ⟨by simp [hpos, hkeq], ?_, by simp [hpos, hl'nd]⟩
        intro c hc
        rw [if_neg hpos] at hc
        exact hsub.subset hc
    have hperm := List.perm_insertionSort scoreGe
      (if 0 < k - l'.length then l' ++ rest else l')
    refine ⟨?_, ?_, ?_, fun h => absurd h hshort⟩
    · rw [hsel2, hmin, List.length_insertionSort]
      exact hcore.1
    · intro c hc
      rw [hsel2] at hc
      exact hcore.2.1 c (hperm.subset hc)
    · rw [hsel2]
      exact hperm.nodup_iff.2 hcore.2.2

/-- Witness for the hypothesis of
`select_diverse_top_chunks_cardinality`. -/
theorem select_diverse_cardinality_witness :
    ([⟨1, 5, 0⟩, ⟨1, 4, 1⟩] : List SChunk).Nodup ∧
    ((selectDiverseTopChunks [⟨1, 5, 0⟩, ⟨1, 4, 1⟩] 1).length =
        min ([⟨1, 5, 0⟩, ⟨1, 4, 1⟩] : List SChunk).length 1 ∧
      (∀ c ∈ selectDiverseTopChunks [⟨1, 5, 0⟩, ⟨1, 4, 1⟩] 1,
          c ∈ ([⟨1, 5, 0⟩, ⟨1, 4, 1⟩] : List SChunk)) ∧
      (selectDiverseTopChunks [⟨1, 5, 0⟩, ⟨1, 4, 1⟩] 1).Nodup ∧
      (([⟨1, 5, 0⟩, ⟨1, 4, 1⟩] : List SChunk).length ≤ 1 →
        selectDiverseTopChunks [⟨1, 5, 0⟩, ⟨1, 4, 1⟩] 1 =
          [⟨1, 5, 0⟩, ⟨1, 4, 1⟩])) := by
  have hnd : ([⟨1, 5, 0⟩, ⟨1, 4, 1⟩] : List SChunk).Nodup := by
    simp [List.nodup_cons]
  exact ⟨hnd, select_diverse_top_chunks_cardinality _ 1 hnd⟩

theorem toFinset_append_cons_of_mem {s t : List Nat} {a : Nat} (h : a ∈ s) :
    (s ++ a :: t).toFinset = (s ++ t).toFinset := by
  ext x
  simp only [List.toFinset_append, Finset.mem_union, List.toFinset_cons, Finset.mem_insert,
    List.mem_toFinset]
  constructor
  · rintro (hx | rfl | hx)
    · exact Or.inl hx
    · exact Or.inl h
    · exact Or.inr hx
  · rintro (hx | hx)
    · exact Or.inl hx
    · exact Or.inr (Or.inr hx)

/-- Invariant of the first pass: walking the remaining suffix `l` with
accumulated state (`sel`, `seen`) over an input sorted by descending score
that still offers at least `k` distinct paper ids, the pass ends with
exactly `k` selected chunks, pairwise-distinct paper ids, and each
selected chunk the best-scoring chunk of its paper. -/
theorem firstPassAux_spec (k : Nat) (scored : List SChunk)
    (hsorted : List.Pairwise scoreGe scored) :
    ∀ (l sel : List SChunk) (seen : List Nat) (pref : List SChunk),
      scored = pref ++ l →
      (∀ x ∈ pref, x.paper_id ∈ seen) →
      seen = sel.map SChunk.paper_id →
      seen.Nodup →
      sel.length ≤ k →
      (∀ c ∈ sel, c ∈ scored ∧
        ∀ d ∈ scored, d.paper_id = c.paper_id →
          d.relevance_score ≤ c.relevance_score) →
      k ≤ (seen ++ l.map SChunk.paper_id).toFinset.card →
      ((firstPassAux k l sel seen).length = k ∧
       ((firstPassAux k l sel seen).map SChunk.paper_id).Nodup ∧
       (∀ c ∈ firstPassAux k l sel seen, c ∈ scored ∧
         ∀ d ∈ scored, d.paper_id = c.paper_id →
           d.relevance_score ≤ c.relevance_score)) := by
  intro l
  induction l with
  | nil =>
    intro sel seen pref hdecomp hpref hseeneq hseennd hlen hprops hcard
    have hc1 : (seen ++ ([] : List SChunk).map SChunk.paper_id).toFinset.card ≤
        seen.length := by
      simpa using seen.toFinset_card_le
    have hgelen : k ≤ sel.length := by
      have := le_trans hcard hc1
      simpa [hseeneq] using this
    have hk : sel.length = k := le_antisymm hlen hgelen
    refine ⟨by simpa [firstPassAux] using hk, ?_, by simpa [firstPassAux] using hprops⟩
    have : (sel.map SChunk.paper_id).Nodup := hseeneq ▸ hseennd
    simpa [firstPassAux] using this
  | cons c rest ih =>
    intro sel seen pref hdecomp hpref hseeneq hseennd hlen hprops hcard
    by_cases hbreak : k ≤ sel.length
    · have hk : sel.length = k := le_antisymm hlen hbreak
      refine ⟨by simpa [firstPassAux, hbreak] using hk, ?_,
        by simpa [firstPassAux, hbreak] using hprops⟩
      have : (sel.map SChunk.paper_id).Nodup := hseeneq ▸ hseennd
      simpa [firstPassAux, hbreak] using this
    · have hdecomp' : scored = (pref ++ [c]) ++ rest := by
        rw [hdecomp]; simp
      by_cases hseen : c.paper_id ∈ seen
      · have hres := ih sel seen (pref ++ [c]) hdecomp'
          (by intro x hx
              rcases List.mem_append.1 hx with hx | hx
              · exact hpref x hx
              · simp only [List.mem_singleton] at hx
                exact hx ▸ hseen)
          hseeneq hseennd hlen hprops
          (by have : (seen ++ (c :: rest).map SChunk.paper_id).toFinset =
                  (seen ++ rest.map SChunk.paper_id).toFinset := by
                simpa using toFinset_append_cons_of_mem (t := rest.map SChunk.paper_id) hseen
              rw [← this]; exact hcard)
        simpa [firstPassAux, hbreak, hseen] using hres
      · have hlt : sel.length < k := lt_of_not_le hbreak
        have hcmax : ∀ d ∈ scored, d.paper_id = c.paper_id →
            d.relevance_score ≤ c.relevance_score := by
          intro d hd hpid
          rw [hdecomp] at hd
          rcases List.mem_append.1 hd with hd | hd
          · exact absurd (hpid ▸ hpref d hd) hseen
          · rcases List.mem_cons.1 hd with rfl | hd
            · exact le_refl _
            · have hpw := (List.pairwise_append.1 (hdecomp ▸ hsorted)).2.1
              exact (List.pairwise_cons.1 hpw).1 d hd
        have hres := ih (sel ++ [c]) (seen ++ [c.paper_id]) (pref ++ [c]) hdecomp'
          (by intro x hx
              rcases List.mem_append.1 hx with hx | hx
              · exact List.mem_append.2 (Or.inl (hpref x hx))
              · simp only [List.mem_singleton] at hx
                exact List.mem_append.2 (Or.inr (by simp [hx])))
          (by simp [hseeneq])
          (by simp [List.nodup_append, hseennd, hseen])
          (by simpa using hlt)
          (by intro x hx
              rcases List.mem_append.1 hx with hx | hx
              · exact hprops x hx
              · simp only [List.mem_singleton] at hx
                subst hx
                exact ⟨by rw [hdecomp]; simp, hcmax⟩)
          (by have : seen ++ [c.paper_id] ++ rest.map SChunk.paper_id =
                  seen ++ (c :: rest).map SChunk.paper_id := by simp
              rw [this]; exact hcard)
        simpa [firstPassAux, hbreak, hseen] using hres

/-- C3: on a descending-sorted scored list holding at least `k` chunks
from at least `k` distinct papers, the selector returns exactly `k`
chunks from `k` distinct papers, each the best-scoring chunk of its
paper, sorted by descending score. -/
theorem select_diverse_top_chunks_diversity
    (scored : List SChunk) (k : Nat)
    (hsorted : List.Pairwise scoreGe scored)
    (hn : k ≤ scored.length)
    (hd : k ≤ ((scored.map SChunk.paper_id).toFinset.card)) :
    (selectDiverseTopChunks scored k).length = k ∧
    ((selectDiverseTopChunks scored k).map SChunk.paper_id).Nodup ∧
    (∀ c ∈ selectDiverseTopChunks scored k, c ∈ scored ∧
      ∀ d ∈ scored, d.paper_id = c.paper_id →
        d.relevance_score ≤ c.relevance_score) ∧
    List.Pairwise scoreGe (selectDiverseTopChunks scored k) := by
  by_cases hshort : scored.length ≤ k
  · have hkeq : scored.length = k := le_antisymm hshort hn
    have heq : selectDiverseTopChunks scored k = scored := by
      simp [selectDiverseTopChunks, hshort]
    have hmapnd : (scored.map SChunk.paper_id).Nodup := by
      have hlecard : (scored.map SChunk.paper_id).dedup.length =
          (scored.map SChunk.paper_id).length := by
        have h1 := (scored.map SChunk.paper_id).toFinset_card_le
        rw [List.card_toFinset] at hd h1
        simp only [List.length_map] at h1 ⊢
        omega
      have := ((scored.map SChunk.paper_id).dedup_sublist).eq_of_length hlecard
      rw [← this]
      exact (scored.map SChunk.paper_id).nodup_dedup
    refine ⟨by simp [heq, hkeq], by simp [heq, hmapnd], ?_, by simp [heq, hsorted]⟩
    intro c hc
    rw [heq] at hc
    refine ⟨hc, ?_⟩
    intro d hd' hpid
    have : d = c := List.inj_on_of_nodup_map hmapnd hd' hc hpid
    exact this ▸ le_refl _
  · obtain ⟨hlen, hnd, hprops⟩ := firstPassAux_spec k scored hsorted scored [] [] []
      (by simp) (by simp) (by simp) (by simp) (by simp) (by simp) (by simpa using hd)
    have hzero : k - (firstPassAux k scored [] []).length = 0 := by
      rw [hlen]; omega
    have hout : selectDiverseTopChunks scored k =
        List.insertionSort scoreGe (firstPassAux k scored [] []) := by
      simp only [selectDiverseTopChunks, if_neg hshort, hzero]
      simp
    have hperm := List.perm_insertionSort scoreGe (firstPassAux k scored [] [])
    refine ⟨?_, ?_, ?_, ?_⟩
    · rw [hout, List.length_insertionSort]; exact hlen
    · rw [hout]
      exact ((hperm.map SChunk.paper_id).nodup_iff).2 hnd
    · intro c hc
      rw [hout] at hc
      exact hprops c (hperm.subset hc)
    · rw [hout]
      exact List.sorted_insertionSort scoreGe (firstPassAux k scored [] [])

/-- Witness for the hypotheses of
`select_diverse_top_chunks_diversity`. -/
theorem select_diverse_diversity_witness :
    List.Pairwise scoreGe [⟨1, 5, 0⟩, ⟨2, 4, 0⟩, ⟨1, 3, 0⟩] ∧
    2 ≤ ([⟨1, 5, 0⟩, ⟨2, 4, 0⟩, ⟨1, 3, 0⟩] : List SChunk).length ∧
    2 ≤ ((([⟨1, 5, 0⟩, ⟨2, 4, 0⟩, ⟨1, 3, 0⟩] : List SChunk).map
        SChunk.paper_id).toFinset.card) ∧
    ((selectDiverseTopChunks [⟨1, 5, 0⟩, ⟨2, 4, 0⟩, ⟨1, 3, 0⟩] 2).length = 2 ∧
     ((selectDiverseTopChunks [⟨1, 5, 0⟩, ⟨2, 4, 0⟩, ⟨1, 3, 0⟩] 2).map
         SChunk.paper_id).Nodup ∧
     (∀ c ∈ selectDiverseTopChunks [⟨1, 5, 0⟩, ⟨2, 4, 0⟩, ⟨1, 3, 0⟩] 2,
        c ∈ ([⟨1, 5, 0⟩, ⟨2, 4, 0⟩, ⟨1, 3, 0⟩] : List SChunk) ∧
        ∀ d ∈ ([⟨1, 5, 0⟩, ⟨2, 4, 0⟩, ⟨1, 3, 0⟩] : List SChunk),
          d.paper_id = c.paper_id → d.relevance_score ≤ c.relevance_score) ∧
     List.Pairwise scoreGe (selectDiverseTopChunks [⟨1, 5, 0⟩, ⟨2, 4, 0⟩, ⟨1, 3, 0⟩] 2)) :=
  ⟨by decide, by decide, by decide,
    select_diverse_top_chunks_diversity _ 2 (by decide) (by decide) (by decide)⟩

/-! ## Relevance scorer (rag_service.py) -/

/-- Python `str.split()` with no separator: split on whitespace runs,
discarding empty fragments. -/
def pySplitWs (l : List Char) : List (List Char) :=
  match l with
  | [] => []
  | c :: t =>
    if pyIsSpace c then pySplitWs t
    else (c :: t.takeWhile (fun d => !(pyIsSpace d))) ::
      pySplitWs (t.dropWhile (fun d => !(pyIsSpace d)))
termination_by l.length
decreasing_by
· simp
· have := (List.dropWhile_sublist (p := fun d => !(pyIsSpace d)) (l := t)).length_le
  simp only [List.length_cons]
  omega

/-- The chunk-record fields read by `_score_chunks_by_relevance`; the
paper-metadata fields the scorer copies untouched are abstracted into
`tag`. -/
structure ChunkRec where
  section_header : List Char
  content : List Char
  section_level : Nat
  chunk_size : Nat
  tag : Nat
deriving DecidableEq

/-- Python `set(text.lower().split())`, with `List.dedup` playing the set
(only cardinality of intersections and membership are ever used). -/
def wordSet (l : List Char) : List (List Char) := (pySplitWs (pyLower l)).dedup

/-- Python `len(query_words.intersection(tokens))`: how many distinct
query words appear among the tokens. -/
def overlapCount (queryWords tokens : List (List Char)) : Nat :=
  (queryWords.filter (fun w => decide (w ∈ tokens))).length

/-- The per-chunk score accumulation of `_score_chunks_by_relevance`
(rag_service.py lines 166-217): header overlap times 0.4, content overlap
times 0.01, section-level bonus `max(0, 3 - level) * 0.1` (the Nat
subtraction below), a 0.8 penalty factor past 3000 characters, and a
clamp at 0. -/
def relevanceScore (query : List Char) (c : ChunkRec) : ℚ :=
  let queryWords := wordSet query
  let headerMatches := overlapCount queryWords (pySplitWs (pyLower c.section_header))
  let s1 := 0 + (headerMatches : ℚ) * (4/10)
  let contentMatches := overlapCount queryWords (wordSet c.content)
  let s2 := s1 + (contentMatches : ℚ) * (1/100)
  let s3 := s2 + ((3 - c.section_level : Nat) : ℚ) * (1/10)
  let s4 := if 3000 < c.chunk_size then s3 * (8/10) else s3
  max 0 s4

/-- `_score_chunks_by_relevance`: annotate every chunk with its relevance
score, preserving input order. -/
def scoreChunksByRelevance (query : List Char) (chunks : List ChunkRec) :
    List (ChunkRec × ℚ) :=
  chunks.map (fun c => (c, relevanceScore query c))

/-- C4: every returned score is non-negative and equals the closed-form
formula — 0.4 per distinct query word found in the header tokens, 0.01
per distinct query word found in the content word set, plus
`max(0, 3 - level) * 0.1`, all scaled by 0.8 when the chunk exceeds 3000
characters and clamped at 0 — and the output preserves the input order. -/
theorem score_chunks_by_relevance_spec (query : List Char) (chunks : List ChunkRec) :
    (∀ p ∈ scoreChunksByRelevance query chunks,
      0 ≤ p.2 ∧
      p.2 = max 0 ((if 3000 < p.1.chunk_size then (8 : ℚ)/10 else 1) *
        ((4/10) * (overlapCount (wordSet query)
            (pySplitWs (pyLower p.1.section_header)) : ℚ) +
         (1/100) * (overlapCount (wordSet query) (wordSet p.1.content) : ℚ) +
         (1/10) * ((max 0 (3 - (p.1.section_level : ℤ)) : ℤ) : ℚ)))) ∧
    (scoreChunksByRelevance query chunks).map Prod.fst = chunks := by
  constructor
  · intro p hp
    obtain ⟨c, _, rfl⟩ := List.mem_map.1 hp
    refine ⟨le_max_left 0 _, ?_⟩
    show relevanceScore query c = _
    unfold relevanceScore
    have hlevel : ((3 - c.section_level : Nat) : ℚ) =
        ((max 0 (3 - (c.section_level : ℤ)) : ℤ) : ℚ) := by
      by_cases hl : c.section_level ≤ 3
      · have h1 : ((3 - c.section_level : Nat) : ℤ) = 3 - (c.section_level : ℤ) := by
          omega
        have h2 : max 0 (3 - (c.section_level : ℤ)) = 3 - (c.section_level : ℤ) := by
          apply max_eq_right; omega
        rw [h2, ← h1]
        push_cast
        ring
      · have h1 : (3 - c.section_level : Nat) = 0 := by omega
        have h2 : max 0 (3 - (c.section_level : ℤ)) = 0 := by
          apply max_eq_left; omega
        rw [h1, h2]
        simp
    by_cases hsize : 3000 < c.chunk_size
    · simp only [if_pos hsize, hlevel]
      ring_nf
    · simp only [if_neg hsize, hlevel]
      ring_nf
  · rw [scoreChunksByRelevance, List.map_map]
    exact List.map_id chunks

/-! ## Section chunker: header detection (section_chunker.py) -/

/-- One detected section header: the stripped line text, its position in
the full text (`text.find(line)`), and its level — the tuples collected
by `_find_section_positions`. -/
structure SectionHeader where
  header : List Char
  pos : Nat
  level : Nat
deriving DecidableEq

/-- Python `text.split(chr(10))`: split on newline separators, keeping
empty fragments. -/
def splitLines (l : List Char) : List (List Char) :=
  match l with
  | [] => [[]]
  | c :: t =>
    if c = '\n' then [] :: splitLines t
    else
      match splitLines t with
      | [] => [[c]]
      | w :: ws => (c :: w) :: ws

/-- Python `hay.find(needle)`: index of the leftmost occurrence, `none`
for the source's `-1`. -/
def findIdx (hay needle : List Char) : Option Nat :=
  if needle.isPrefixOf hay then some 0
  else
    match hay with
    | [] => none
    | _ :: t => (findIdx t needle).map (· + 1)

/-- Fuelled greedy consumption of the regex fragment `(?:\.\d+)*`; each
step consumes at least two characters, so `l.length` fuel never runs
out. -/
def dottedTailF : Nat → List Char → List Char
  | 0, l => l
  | fuel + 1, l =>
    match l with
    | '.' :: r =>
      let ds := r.takeWhile Char.isDigit
      if ds.isEmpty then l else dottedTailF fuel (r.drop ds.length)
    | _ => l

/-- Greedy match of `(?:\.\d+)*`, returning the unconsumed remainder. -/
def dottedTail (l : List Char) : List Char := dottedTailF l.length l

/-- Regex prefix match `^\s*(\d+)\.\s+([A-Z][^.\n]*)` (primary pattern 1,
level 1) on an already stripped line, so the leading whitespace class
consumes nothing. -/
def patNumberedTop (l : List Char) : Bool :=
  let ds := l.takeWhile Char.isDigit
  decide (ds ≠ []) &&
    match l.drop ds.length with
    | '.' :: r2 =>
      let ws := r2.takeWhile pyIsSpace
      decide (ws ≠ []) &&
        match r2.drop ws.length with
        | c :: _ => c.isUpper
        | [] => false
    | _ => false

/-- Regex prefix match `^\s*(\d+\.\d+(?:\.\d+)*)\s+([A-Z][^.\n]*)`
(primary pattern 2, level 2). -/
def patNumberedSub (l : List Char) : Bool :=
  let ds1 := l.takeWhile Char.isDigit
  decide (ds1 ≠ []) &&
    match l.drop ds1.length with
    | '.' :: r2 =>
      let ds2 := r2.takeWhile Char.isDigit
      decide (ds2 ≠ []) &&
        (let r3 := dottedTail (r2.drop ds2.length)
         let ws := r3.takeWhile pyIsSpace
         decide (ws ≠ []) &&
           match r3.drop ws.length with
           | c :: _ => c.isUpper
           | [] => false)
    | _ => false

/-- The canonical academic section names of primary pattern 3. -/
def sectionKeywords : List (List Char) :=
  (["Abstract", "Introduction", "Conclusion", "References", "Bibliography",
    "Appendix", "Methods", "Results", "Discussion", "Related Work",
    "Background"]).map String.toList

/-- Regex prefix match of the keyword alternation (primary pattern 3,
level 1). -/
def patKeyword (l : List Char) : Bool :=
  sectionKeywords.any (fun w => w.isPrefixOf l)

/-- Regex match `^\s*([A-Z][A-Za-z\s]+)(?=\n|$)` (primary pattern 4,
level 2): the line holds no newline, so the lookahead forces the
character class to cover the whole line. -/
def patCapLine (l : List Char) : Bool :=
  match l with
  | c :: rest =>
    c.isUpper && decide (rest ≠ []) && rest.all (fun d => d.isAlpha || pyIsSpace d)
  | [] => false

/-- Regex match `^\s*([A-Z][A-Z\s]+)$` (enhanced pattern 1, level 1). -/
def patAllCaps (l : List Char) : Bool :=
  match l with
  | c :: rest =>
    c.isUpper && decide (rest ≠ []) && rest.all (fun d => d.isUpper || pyIsSpace d)
  | [] => false

/-- Regex match `^\s*([A-Z][A-Za-z\s]*[A-Z][A-Za-z\s]*)$` (enhanced
pattern 2, level 2): whole line of letters and whitespace starting
uppercase with a second uppercase letter somewhere after. -/
def patMixedCaps (l : List Char) : Bool :=
  match l with
  | c :: rest =>
    c.isUpper && rest.all (fun d => d.isAlpha || pyIsSpace d) && rest.any Char.isUpper
  | [] => false

/-- Regex prefix match `^\s*(\d+\)\s+[A-Z][^.\n]*)` (enhanced pattern 3,
level 2). -/
def patNumberedParen (l : List Char) : Bool :=
  let ds := l.takeWhile Char.isDigit
  decide (ds ≠ []) &&
    match l.drop ds.length with
    | ')' :: r2 =>
      let ws := r2.takeWhile pyIsSpace
      decide (ws ≠ []) &&
        match r2.drop ws.length with
        | c :: _ => c.isUpper
        | [] => false
    | _ => false

/-- `self.section_patterns` with their levels, in priority order. -/
def sectionPatterns : List ((List Char → Bool) × Nat) :=
  [(patNumberedTop, 1), (patNumberedSub, 2), (patKeyword, 1), (patCapLine, 2)]

/-- `self.enhanced_patterns` with their levels, in priority order. -/
def enhancedPatterns : List ((List Char → Bool) × Nat) :=
  [(patAllCaps, 1), (patMixedCaps, 2), (patNumberedParen, 2)]

/-- The primary-pattern loop of `_find_section_positions`: the first
pattern matching the stripped line whose raw line is found in the text
yields (position, level); a failed `find` falls through to the next
pattern, as in the source. -/
def tryPats (text line stripped : List Char) :
    List ((List Char → Bool) × Nat) → Option (Nat × Nat)
  | [] => none
  | (p, lvl) :: rest =>
    if p stripped then
      match findIdx text line with
      | some pos => some (pos, lvl)
      | none => tryPats text line stripped rest
    else tryPats text line stripped rest

/-- The enhanced-pattern loop, additionally gated by
`_is_likely_header`. -/
def tryPatsGated (text line stripped : List Char) :
    List ((List Char → Bool) × Nat) → Option (Nat × Nat)
  | [] => none
  | (p, lvl) :: rest =>
    if p stripped && isLikelyHeader stripped then
      match findIdx text line with
      | some pos => some (pos, lvl)
      | none => tryPatsGated text line stripped rest
    else tryPatsGated text line stripped rest

/-- The per-line scan of `_find_section_positions` before sorting: skip
blank lines, try primary patterns, and only if none fired (the loop's
`else` clause) try the gated enhanced patterns. -/
def scanLines (text : List Char) : List (List Char) → List SectionHeader
  | [] => []
  | line :: rest =>
    let stripped := pyStrip line
    let tail := scanLines text rest
    if stripped.isEmpty then tail
    else
      match tryPats text line stripped sectionPatterns with
      | some (pos, lvl) => ⟨stripped, pos, lvl⟩ :: tail
      | none =>
        match tryPatsGated text line stripped enhancedPatterns with
        | some (pos, lvl) => ⟨stripped, pos, lvl⟩ :: tail
        | none => tail

/-- Ascending-position comparison of the final
`sections.sort(key=lambda x: x[1])`; Python's sort is stable, which
insertion sort with this relation reproduces. -/
def posLe (a b : SectionHeader) : Prop := a.pos ≤ b.pos

instance : DecidableRel posLe := fun a b => inferInstanceAs (Decidable (a.pos ≤ b.pos))

instance : IsTotal SectionHeader posLe := ⟨fun a b => Nat.le_total a.pos b.pos⟩

instance : IsTrans SectionHeader posLe := ⟨fun _ _ _ => Nat.le_trans⟩

/-- `SectionChunker._find_section_positions` (section_chunker.py lines
78-124). -/
def findSectionPositions (text : List Char) : List SectionHeader :=
  List.insertionSort posLe (scanLines text (splitLines text))

/-! ## Section chunker: chunk construction (section_chunker.py) -/

/-- The `TextChunk` dataclass (section_chunker.py lines 12-20). -/
structure TextChunk where
  content : List Char
  section_header : List Char
  section_level : Nat
  start_index : Nat
  end_index : Nat
  chunk_size : Nat
deriving DecidableEq

/-- Python slice `text[a:b]` (no negative indices occur in the source). -/
def pySlice (l : List Char) (a b : Nat) : List Char := (l.take b).drop a

/-- `SectionChunker._create_chunks_from_sections` (lines 157-191): each
section spans from its own position to the next section's position (or
the end of text), with the slice stripped before it becomes the chunk
content. -/
def createChunksFromSections (text : List Char) : List SectionHeader → List TextChunk
  | [] => []
  | s :: rest =>
    let endPos :=
      match rest with
      | [] => text.length
      | s2 :: _ => s2.pos
    let content := pyStrip (pySlice text s.pos endPos)
    ⟨content, s.header, s.level, s.pos, endPos, content.length⟩ ::
      createChunksFromSections text rest

/-- Sentence-ending characters sought by the split heuristics. -/
def isSentEnd (c : Char) : Bool := c = '.' || c = '!' || c = '?'

/-- The combined `max` of the three `rfind` calls: the last index holding
a sentence-ending character, or -1 when there is none. -/
def lastSentIdx : List Char → Int
  | [] => -1
  | c :: t =>
    let r := lastSentIdx t
    if 0 ≤ r then r + 1
    else if isSentEnd c then 0 else -1

/-- One loop iteration's `end_pos` computation, shared by
`_split_chunk_arbitrarily` and `_fallback_chunking` (lines 250-269 and
301-316): cap `maxSize` ahead, then prefer the last sentence boundary
within the trailing 100 characters when its index in the search window is
positive. Python's `end_pos - 100` may be negative there; its `max` with
`cur ≥ 0` coincides with the Nat truncated subtraction used here. -/
def computeEndPos (content : List Char) (cur maxSize : Nat) : Nat :=
  let e := min (cur + maxSize) content.length
  if e < content.length then
    let ss := max cur (e - 100)
    let cut := lastSentIdx (pySlice content ss e)
    if 0 < cut then ss + cut.toNat + 1 else e
  else e

/-- Fuelled form of the shared emission loop of
`_split_chunk_arbitrarily` and `_fallback_chunking`: emit the stripped
slice `[cur, end_pos)` when non-empty and continue from `end_pos`. -/
def splitChunkLoopF (maxSize : Nat) (hdr : List Char) (lvl startIdx : Nat)
    (content : List Char) : Nat → Nat → List TextChunk
  | _, 0 => []
  | cur, fuel + 1 =>
    if cur < content.length then
      let e := computeEndPos content cur maxSize
      if cur < e then
        let sub := pyStrip (pySlice content cur e)
        let rest := splitChunkLoopF maxSize hdr lvl startIdx content e fuel
        if sub.isEmpty then rest
        else ⟨sub, hdr, lvl, startIdx + cur, startIdx + e, sub.length⟩ :: rest
      else []
    else []

/-- The shared splitting loop. `end_pos` strictly advances on every
iteration whenever `maxSize ≥ 1` (`compute_end_pos_progress`), so
`content.length + 1` fuel never runs out; with `maxSize = 0` the Python
loop would never terminate, so no behaviour is lost by the fuel cap. -/
def splitChunkLoop (maxSize : Nat) (hdr : List Char) (lvl startIdx : Nat)
    (content : List Char) (cur : Nat) : List TextChunk :=
  splitChunkLoopF maxSize hdr lvl startIdx content cur (content.length + 1)

/-- `SectionChunker._split_chunk_arbitrarily` (lines 236-286). -/
def splitChunkArbitrarily (maxSize : Nat) (c : TextChunk) : List TextChunk :=
  splitChunkLoop maxSize c.section_header c.section_level c.start_index c.content 0

/-- `SectionChunker._fallback_chunking` (lines 288-332): the same loop
over the whole text with the sentinel header at level 1 and absolute
offsets. -/
def fallbackChunking (maxSize : Nat) (text : List Char) : List TextChunk :=
  splitChunkLoop maxSize (("Unknown Section").toList) 1 0 text 0

/-- `SectionChunker._split_large_chunks` (lines 193-213). -/
def splitLargeChunks (maxSize : Nat) : List TextChunk → List TextChunk
  | [] => []
  | c :: rest =>
    if c.chunk_size ≤ maxSize then c :: splitLargeChunks maxSize rest
    else splitChunkArbitrarily maxSize c ++ splitLargeChunks maxSize rest

/-- `SectionChunker._filter_tiny_chunks` (lines 215-234). -/
def filterTinyChunks (minSize : Nat) (chunks : List TextChunk) : List TextChunk :=
  chunks.filter (fun c => decide (minSize ≤ c.chunk_size))

/-- `SectionChunker.chunk_paper` (lines 47-76); `maxSize` and `minSize`
are the constructor configuration (defaults 2000 and 50). The fallback
path returns without the tiny-chunk filter, exactly as in the source. -/
def chunkPaper (maxSize minSize : Nat) (text : List Char) : List TextChunk :=
  if text.isEmpty then []
  else
    let secs := findSectionPositions text
    if secs.isEmpty then fallbackChunking maxSize text
    else
      filterTinyChunks minSize
        (splitLargeChunks maxSize (createChunksFromSections text secs))

/-! ## Chunk offset and content invariants (C1) -/

theorem findIdx_le (needle : List Char) :
    ∀ (hay : List Char) (p : Nat), findIdx hay needle = some p → p ≤ hay.length := by
  intro hay
  induction hay with
  | nil =>
    intro p hp
    unfold findIdx at hp
    by_cases h : needle.isPrefixOf [] = true
    · rw [if_pos h] at hp
      cases hp
      exact Nat.le_refl 0
    · rw [if_neg h] at hp
      cases hp
  | cons c t ih =>
    intro p hp
    unfold findIdx at hp
    by_cases h : needle.isPrefixOf (c :: t) = true
    · rw [if_pos h] at hp
      cases hp
      exact Nat.zero_le _
    · rw [if_neg h] at hp
      have hp' : Option.map (fun x => x + 1) (findIdx t needle) = some p := hp
      cases hfi : findIdx t needle with
      | none => rw [hfi] at hp'; cases hp'
      | some q =>
        rw [hfi] at hp'
        simp only [Option.map_some'] at hp'
        cases hp'
        have := ih q hfi
        simp only [List.length_cons]
        omega

theorem tryPats_pos (text line stripped : List Char) :
    ∀ (pats : List ((List Char → Bool) × Nat)) (pos lvl : Nat),
      tryPats text line stripped pats = some (pos, lvl) →
      findIdx text line = some pos := by
  intro pats
  induction pats with
  | nil => intro pos lvl h; cases h
  | cons pl rest ih =>
    obtain ⟨p, plvl⟩ := pl
    intro pos lvl h
    simp only [tryPats] at h
    by_cases hp : p stripped = true
    · rw [if_pos hp] at h
      cases hfi : findIdx text line with
      | none =>
        rw [hfi] at h
        have := ih pos lvl h
        rw [hfi] at this
        exact this
      | some q =>
        rw [hfi] at h
        injection h with h2
        injection h2 with h3 h4
        rw [h3]
    · rw [if_neg hp] at h
      have := ih pos lvl h
      rw [← this]

theorem tryPatsGated_pos (text line stripped : List Char) :
    ∀ (pats : List ((List Char → Bool) × Nat)) (pos lvl : Nat),
      tryPatsGated text line stripped pats = some (pos, lvl) →
      findIdx text line = some pos := by
  intro pats
  induction pats with
  | nil => intro pos lvl h; cases h
  | cons pl rest ih =>
    obtain ⟨p, plvl⟩ := pl
    intro pos lvl h
    simp only [tryPatsGated] at h
    by_cases hp : (p stripped && isLikelyHeader stripped) = true
    · rw [if_pos hp] at h
      cases hfi : findIdx text line with
      | none =>
        rw [hfi] at h
        have := ih pos lvl h
        rw [hfi] at this
        exact this
      | some q =>
        rw [hfi] at h
        injection h with h2
        injection h2 with h3 h4
        rw [h3]
    · rw [if_neg hp] at h
      have := ih pos lvl h
      rw [← this]

theorem scanLines_pos_le (text : List Char) :
    ∀ (lines : List (List Char)), ∀ s ∈ scanLines text lines,
      s.pos ≤ text.length := by
  intro lines
  induction lines with
  | nil => intro s hs; cases hs
  | cons line rest ih =>
    intro s hs
    simp only [scanLines] at hs
    by_cases hstr : (pyStrip line).isEmpty = true
    · rw [if_pos hstr] at hs
      exact ih s hs
    · rw [if_neg hstr] at hs
      cases h1 : tryPats text line (pyStrip line) sectionPatterns with
      | some pl =>
        obtain ⟨pos, lvl⟩ := pl
        rw [h1] at hs
        rcases List.mem_cons.1 hs with rfl | hs
        · exact findIdx_le line text pos (tryPats_pos text line _ _ pos lvl h1)
        · exact ih s hs
      | none =>
        rw [h1] at hs
        cases h2 : tryPatsGated text line (pyStrip line) enhancedPatterns with
        | some pl =>
          obtain ⟨pos, lvl⟩ := pl
          rw [h2] at hs
          rcases List.mem_cons.1 hs with rfl | hs
          · exact findIdx_le line text pos (tryPatsGated_pos text line _ _ pos lvl h2)
          · exact ih s hs
        | none =>
          rw [h2] at hs
          exact ih s hs

theorem findSectionPositions_sorted (text : List Char) :
    List.Pairwise posLe (findSectionPositions text) :=
  List.sorted_insertionSort posLe _

theorem findSectionPositions_le (text : List Char) :
    ∀ s ∈ findSectionPositions text, s.pos ≤ text.length := by
  intro s hs
  have hperm := List.perm_insertionSort posLe (scanLines text (splitLines text))
  exact scanLines_pos_le text _ s (hperm.subset hs)

theorem createChunksFromSections_spec (text : List Char) :
    ∀ (secs : List SectionHeader), List.Pairwise posLe secs →
      (∀ s ∈ secs, s.pos ≤ text.length) →
      (List.Chain' (fun a b => a.end_index ≤ b.start_index)
          (createChunksFromSections text secs) ∧
       ∀ c ∈ createChunksFromSections text secs,
         c.start_index ≤ c.end_index ∧
         c.content = pyStrip (pySlice text c.start_index c.end_index) ∧
         c.chunk_size = c.content.length) := by
  intro secs
  induction secs with
  | nil =>
    intro _ _
    exact ⟨List.chain'_nil, by intro c hc; cases hc⟩
  | cons s rest ih =>
    intro hpw hle
    have hpw' : List.Pairwise posLe rest := (List.pairwise_cons.1 hpw).2
    have hrel : ∀ b ∈ rest, posLe s b := (List.pairwise_cons.1 hpw).1
    have hle' : ∀ x ∈ rest, x.pos ≤ text.length :=
      fun x hx => hle x (List.mem_cons_of_mem _ hx)
    obtain ⟨ihchain, ihprops⟩ := ih hpw' hle'
    cases rest with
    | nil =>
      refine ⟨?_, ?_⟩
      · exact List.chain'_singleton _
      · intro c hc
        rcases List.mem_cons.1 hc with rfl | hc
        · exact ⟨hle s (List.mem_cons_self _ _), rfl, rfl⟩
        · cases hc
    | cons s2 rest2 =>
      refine ⟨?_, ?_⟩
      · simp only [createChunksFromSections] at ihchain ⊢
        exact List.chain'_cons.2 ⟨le_refl s2.pos, ihchain⟩
      · intro c hc
        rcases List.mem_cons.1 hc with rfl | hc
        · exact ⟨hrel s2 (List.mem_cons_self _ _), rfl, rfl⟩
        · exact ihprops c hc

/-! ## Loop progress and termination (C10) -/

theorem lastSentIdx_bounds (l : List Char) :
    -1 ≤ lastSentIdx l ∧ lastSentIdx l < (l.length : Int) := by
  induction l with
  | nil => simp [lastSentIdx]
  | cons c t ih =>
    simp only [lastSentIdx, List.length_cons]
    by_cases h : (0 : Int) ≤ lastSentIdx t
    · rw [if_pos h]
      push_cast
      omega
    · rw [if_neg h]
      by_cases hc : isSentEnd c = true
      · rw [if_pos hc]
        refine ⟨by norm_num, ?_⟩
        push_cast
        omega
      · rw [if_neg hc]
        refine ⟨le_refl _, ?_⟩
        push_cast
        omega

theorem pySlice_length (content : List Char) (a b : Nat) :
    (pySlice content a b).length = min b content.length - a := by
  simp [pySlice, List.length_drop, List.length_take]

theorem computeEndPos_progress_aux (content : List Char) (cur maxSize : Nat)
    (h1 : cur < content.length) (h2 : 1 ≤ maxSize) :
    (cur < computeEndPos content cur maxSize ∧
     computeEndPos content cur maxSize ≤ content.length) ∧
    (0 < lastSentIdx (pySlice content
        (max cur (min (cur + maxSize) content.length - 100))
        (min (cur + maxSize) content.length)) →
     cur < max cur (min (cur + maxSize) content.length - 100) +
       (lastSentIdx (pySlice content
         (max cur (min (cur + maxSize) content.length - 100))
         (min (cur + maxSize) content.length))).toNat) := by
  have hb := lastSentIdx_bounds (pySlice content
    (max cur (min (cur + maxSize) content.length - 100))
    (min (cur + maxSize) content.length))
  have hl := pySlice_length content
    (max cur (min (cur + maxSize) content.length - 100))
    (min (cur + maxSize) content.length)
  rw [hl] at hb
  constructor
  · unfold computeEndPos
    by_cases hlt : min (cur + maxSize) content.length < content.length
    · rw [if_pos hlt]
      by_cases hcut : (0 : Int) < lastSentIdx (pySlice content
          (max cur (min (cur + maxSize) content.length - 100))
          (min (cur + maxSize) content.length))
      · rw [if_pos hcut]
        constructor
        · omega
        · omega
      · rw [if_neg hcut]
        omega
    · rw [if_neg hlt]
      omega
  · intro hcut
    omega

/-- C10: whenever the loop position is inside the content and the
configured maximum chunk size is at least 1, the shared `end_pos`
computation of `_split_chunk_arbitrarily` and `_fallback_chunking`
strictly advances past `current_pos` while staying within the text, and
the sentence-boundary cut position, when taken (`cut_point > 0`), lies
strictly beyond `current_pos` — so both while loops consume the text in
finitely many steps. -/
theorem split_loops_progress (content : List Char) (cur maxSize : Nat)
    (h1 : cur < content.length) (h2 : 1 ≤ maxSize) :
    (cur < computeEndPos content cur maxSize ∧
     computeEndPos content cur maxSize ≤ content.length) ∧
    (0 < lastSentIdx (pySlice content
        (max cur (min (cur + maxSize) content.length - 100))
        (min (cur + maxSize) content.length)) →
     cur < max cur (min (cur + maxSize) content.length - 100) +
       (lastSentIdx (pySlice content
         (max cur (min (cur + maxSize) content.length - 100))
         (min (cur + maxSize) content.length))).toNat) :=
  computeEndPos_progress_aux content cur maxSize h1 h2

/-- Witness for the hypotheses of `split_loops_progress`. -/
theorem split_loops_progress_witness :
    0 < (("ab.cd").toList).length ∧ 1 ≤ 3 ∧
    ((0 < computeEndPos (("ab.cd").toList) 0 3 ∧
      computeEndPos (("ab.cd").toList) 0 3 ≤ (("ab.cd").toList).length) ∧
     (0 < lastSentIdx (pySlice (("ab.cd").toList)
         (max 0 (min (0 + 3) (("ab.cd").toList).length - 100))
         (min (0 + 3) (("ab.cd").toList).length)) →
      0 < max 0 (min (0 + 3) (("ab.cd").toList).length - 100) +
        (lastSentIdx (pySlice (("ab.cd").toList)
          (max 0 (min (0 + 3) (("ab.cd").toList).length - 100))
          (min (0 + 3) (("ab.cd").toList).length))).toNat)) :=
  ⟨by decide, by decide, split_loops_progress _ 0 3 (by decide) (by decide)⟩

/-! ## The pre-filter chunk sequence of chunk_paper (C1) -/

theorem computeEndPos_le (content : List Char) (cur maxSize : Nat) :
    computeEndPos content cur maxSize ≤ content.length := by
  have hb := lastSentIdx_bounds (pySlice content
    (max cur (min (cur + maxSize) content.length - 100))
    (min (cur + maxSize) content.length))
  have hl := pySlice_length content
    (max cur (min (cur + maxSize) content.length - 100))
    (min (cur + maxSize) content.length)
  rw [hl] at hb
  unfold computeEndPos
  by_cases hlt : min (cur + maxSize) content.length < content.length
  · rw [if_pos hlt]
    by_cases hcut : (0 : Int) < lastSentIdx (pySlice content
        (max cur (min (cur + maxSize) content.length - 100))
        (min (cur + maxSize) content.length))
    · rw [if_pos hcut]
      omega
    · rw [if_neg hcut]
      omega
  · rw [if_neg hlt]
    omega

theorem pyStrip_length_le (l : List Char) : (pyStrip l).length ≤ l.length := by
  unfold pyStrip
  rw [List.length_reverse]
  refine le_trans ((List.dropWhile_sublist
    (p := pyIsSpace) (l := (l.dropWhile pyIsSpace).reverse)).length_le) ?_
  rw [List.length_reverse]
  exact (List.dropWhile_sublist (p := pyIsSpace) (l := l)).length_le

theorem chain_end_le_starts :
    ∀ (c : TextChunk) (rest : List TextChunk),
      List.Chain' (fun a b => a.end_index ≤ b.start_index) (c :: rest) →
      (∀ x ∈ rest, x.start_index ≤ x.end_index) →
      ∀ p ∈ rest, c.end_index ≤ p.start_index := by
  intro c rest
  induction rest generalizing c with
  | nil => intro _ _ p hp; cases hp
  | cons d rest2 ih =>
    intro hchain hse p hp
    have h1 : c.end_index ≤ d.start_index := (List.chain'_cons.1 hchain).1
    rcases List.mem_cons.1 hp with rfl | hp
    · exact h1
    · have h2 := ih d (List.chain'_cons.1 hchain).2
        (fun x hx => hse x (List.mem_cons_of_mem _ hx)) p hp
      have h3 : d.start_index ≤ d.end_index := hse d (List.mem_cons_self _ _)
      omega

/-- Every chunk that the splitting loop emits covers a window
`[a, b)` of the split content, strictly forward-moving and in bounds,
with content the stripped slice of that window, offsets shifted by
`startIdx`, and the size field equal to the content length; consecutive
emissions never overlap. -/
theorem splitChunkLoopF_shape (maxSize : Nat) (hdr : List Char) (lvl si : Nat)
    (content : List Char) :
    ∀ (fuel cur : Nat),
      List.Chain' (fun a b => a.end_index ≤ b.start_index)
        (splitChunkLoopF maxSize hdr lvl si content cur fuel) ∧
      ∀ ch ∈ splitChunkLoopF maxSize hdr lvl si content cur fuel,
        ∃ a b, cur ≤ a ∧ a < b ∧ b ≤ content.length ∧
          ch.start_index = si + a ∧ ch.end_index = si + b ∧
          ch.content = pyStrip (pySlice content a b) ∧
          ch.chunk_size = ch.content.length := by
  intro fuel
  induction fuel with
  | zero =>
    intro cur
    exact ⟨List.chain'_nil, fun ch hch => absurd hch (List.not_mem_nil ch)⟩
  | succ n ih =>
    intro cur
    by_cases hc : cur < content.length
    · by_cases hce : cur < computeEndPos content cur maxSize
      · obtain ⟨ihchain, ihprops⟩ := ih (computeEndPos content cur maxSize)
        have heleb := computeEndPos_le content cur maxSize
        by_cases hsub : (pyStrip (pySlice content cur
            (computeEndPos content cur maxSize))).isEmpty = true
        · simp only [splitChunkLoopF, if_pos hc, if_pos hce, if_pos hsub]
          refine ⟨ihchain, ?_⟩
          intro ch hch
          obtain ⟨a, b, ha, hab, hble, h1, h2, h3, h4⟩ := ihprops ch hch
          exact ⟨a, b, by omega, hab, hble, h1, h2, h3, h4⟩
        · simp only [splitChunkLoopF, if_pos hc, if_pos hce, if_neg hsub]
          constructor
          · refine List.chain'_cons'.2 ⟨?_, ihchain⟩
            intro y hy
            obtain ⟨a, b, ha, hab, hble, h1, h2, _, _⟩ :=
              ihprops y (List.mem_of_mem_head? hy)
            rw [h1]
            show si + computeEndPos content cur maxSize ≤ si + a
            omega
          · intro ch hch
            rcases List.mem_cons.1 hch with rfl | hch
            · exact ⟨cur, computeEndPos content cur maxSize, le_refl _, hce,
                heleb, rfl, rfl, rfl, rfl⟩
            · obtain ⟨a, b, ha, hab, hble, h1, h2, h3, h4⟩ := ihprops ch hch
              exact ⟨a, b, by omega, hab, hble, h1, h2, h3, h4⟩
      · simp only [splitChunkLoopF, if_pos hc, if_neg hce]
        exact ⟨List.chain'_nil, fun ch hch => absurd hch (List.not_mem_nil ch)⟩
    · simp only [splitChunkLoopF, if_neg hc]
      exact ⟨List.chain'_nil, fun ch hch => absurd hch (List.not_mem_nil ch)⟩

/-- `_split_large_chunks` preserves the non-overlapping chunk order, and
each output chunk is either an input chunk within the size cap or a
sub-chunk of an oversize input chunk, covering a forward window of that
chunk's content with offsets relative to its start. -/
theorem splitLargeChunks_spec (maxSize : Nat) :
    ∀ (chunks : List TextChunk),
      List.Chain' (fun a b => a.end_index ≤ b.start_index) chunks →
      (∀ c ∈ chunks, c.start_index ≤ c.end_index ∧
        c.content.length ≤ c.end_index - c.start_index) →
      (List.Chain' (fun a b => a.end_index ≤ b.start_index)
          (splitLargeChunks maxSize chunks) ∧
       ∀ c ∈ splitLargeChunks maxSize chunks,
         (c ∈ chunks ∧ c.chunk_size ≤ maxSize) ∨
         (∃ p ∈ chunks, maxSize < p.chunk_size ∧
           ∃ a b, a < b ∧ b ≤ p.content.length ∧
             c.start_index = p.start_index + a ∧
             c.end_index = p.start_index + b ∧
             c.content = pyStrip (pySlice p.content a b) ∧
             c.chunk_size = c.content.length)) := by
  intro chunks
  induction chunks with
  | nil =>
    intro _ _
    exact ⟨List.chain'_nil, fun c hc => absurd hc (List.not_mem_nil c)⟩
  | cons c rest ih =>
    intro hchain hprops
    have hchainrest : List.Chain' (fun a b => a.end_index ≤ b.start_index) rest :=
      (List.chain'_cons'.1 hchain).2
    obtain ⟨ihchain, ihmem⟩ := ih hchainrest
      (fun x hx => hprops x (List.mem_cons_of_mem _ hx))
    have hcend : ∀ p ∈ rest, c.end_index ≤ p.start_index :=
      chain_end_le_starts c rest hchain
        (fun x hx => (hprops x (List.mem_cons_of_mem _ hx)).1)
    have hlb : ∀ y ∈ splitLargeChunks maxSize rest,
        ∃ p ∈ rest, p.start_index ≤ y.start_index := by
      intro y hy
      rcases ihmem y hy with ⟨hyin, _⟩ | ⟨p, hp, _, a, b, _, _, hstart, _⟩
      · exact ⟨y, hyin, le_refl _⟩
      · exact ⟨p, hp, by omega⟩
    have hyge : ∀ y ∈ splitLargeChunks maxSize rest, c.end_index ≤ y.start_index := by
      intro y hy
      obtain ⟨p, hp, hple⟩ := hlb y hy
      exact le_trans (hcend p hp) hple
    by_cases hsize : c.chunk_size ≤ maxSize
    · simp only [splitLargeChunks, if_pos hsize]
      constructor
      · refine List.chain'_cons'.2 ⟨?_, ihchain⟩
        intro y hy
        exact hyge y (List.mem_of_mem_head? hy)
      · intro x hx
        rcases List.mem_cons.1 hx with rfl | hx
        · exact Or.inl ⟨List.mem_cons_self _ _, hsize⟩
        · rcases ihmem x hx with ⟨hin, hsz⟩ | ⟨p, hp, hrest⟩
          · exact Or.inl ⟨List.mem_cons_of_mem _ hin, hsz⟩
          · exact Or.inr ⟨p, List.mem_cons_of_mem _ hp, hrest⟩
    · obtain ⟨hexpchain, hexpprops⟩ := splitChunkLoopF_shape maxSize c.section_header
        c.section_level c.start_index c.content (c.content.length + 1) 0
      have hcse := hprops c (List.mem_cons_self _ _)
      simp only [splitLargeChunks, if_neg hsize, splitChunkArbitrarily, splitChunkLoop]
      constructor
      · refine List.Chain'.append hexpchain ihchain ?_
        intro x hx y hy
        obtain ⟨a, b, _, hab, hble, _, hxe, _, _⟩ :=
          hexpprops x (List.mem_of_mem_getLast? hx)
        have hxle : x.end_index ≤ c.end_index := by
          rw [hxe]
          omega
        exact le_trans hxle (hyge y (List.mem_of_mem_head? hy))
      · intro x hx
        rcases List.mem_append.1 hx with hx | hx
        · obtain ⟨a, b, _, hab, hble, hxs, hxe, hxc, hxsz⟩ := hexpprops x hx
          exact Or.inr ⟨c, List.mem_cons_self _ _, lt_of_not_le hsize,
            a, b, hab, hble, hxs, hxe, hxc, hxsz⟩
        · rcases ihmem x hx with ⟨hin, hsz⟩ | ⟨p, hp, hrest⟩
          · exact Or.inl ⟨List.mem_cons_of_mem _ hin, hsz⟩
          · exact Or.inr ⟨p, List.mem_cons_of_mem _ hp, hrest⟩

/-- C1 amended: the chunk sequence `chunk_paper` holds just before
min-size filtering — `_split_large_chunks` applied to the section chunks —
satisfies: consecutive chunks never overlap (`end_index ≤` the next
`start_index`), every chunk has `start_index ≤ end_index` (equality is
possible when duplicate header lines map to the same `text.find`
position) and `chunk_size` equal to its content length, and every chunk's
content is the whitespace-stripped slice `text[start:end].strip()` —
except sub-chunks of an oversize section, whose content is the stripped
slice `section_content[a:b].strip()` of that section's already-stripped
content, with `start_index`/`end_index` equal to the section's start
offset plus `a`/`b`. -/
theorem chunk_offsets_spec (maxSize : Nat) (text : List Char) :
    List.Chain' (fun a b => a.end_index ≤ b.start_index)
      (splitLargeChunks maxSize
        (createChunksFromSections text (findSectionPositions text))) ∧
    ∀ c ∈ splitLargeChunks maxSize
        (createChunksFromSections text (findSectionPositions text)),
      c.start_index ≤ c.end_index ∧ c.chunk_size = c.content.length ∧
      (c.content = pyStrip (pySlice text c.start_index c.end_index) ∨
       ∃ p ∈ createChunksFromSections text (findSectionPositions text),
         maxSize < p.chunk_size ∧
         p.content = pyStrip (pySlice text p.start_index p.end_index) ∧
         ∃ a b, a < b ∧ b ≤ p.content.length ∧
           c.start_index = p.start_index + a ∧
           c.end_index = p.start_index + b ∧
           c.content = pyStrip (pySlice p.content a b)) := by
  obtain ⟨hchain0, hprops0⟩ := createChunksFromSections_spec text _
    (findSectionPositions_sorted text) (findSectionPositions_le text)
  have hpre : ∀ c ∈ createChunksFromSections text (findSectionPositions text),
      c.start_index ≤ c.end_index ∧
      c.content.length ≤ c.end_index - c.start_index := by
    intro c hc
    obtain ⟨hse, hcontent, _⟩ := hprops0 c hc
    refine ⟨hse, ?_⟩
    rw [hcontent]
    have h1 := pyStrip_length_le (pySlice text c.start_index c.end_index)
    rw [pySlice_length] at h1
    omega
  obtain ⟨hchain1, hmem1⟩ := splitLargeChunks_spec maxSize _ hchain0 hpre
  refine ⟨hchain1, ?_⟩
  intro c hc
  rcases hmem1 c hc with ⟨hin, _⟩ |
    ⟨p, hp, hplt, a, b, hab, hble, hcs, hce, hcc, hcsz⟩
  · obtain ⟨hse, hcontent, hsz⟩ := hprops0 c hin
    exact ⟨hse, hsz, Or.inl hcontent⟩
  · obtain ⟨_, hpcontent, _⟩ := hprops0 p hp
    exact ⟨by omega, hcsz,
      Or.inr ⟨p, hp, hplt, hpcontent, a, b, hab, hble, hcs, hce, hcc⟩⟩

/-- C1 counterexample, both at the pre-min-filter point of `chunk_paper`:
on "Abstract\nAbstract\nMethods\nfoo" (where `_split_large_chunks` with
the default cap 2000 passes every chunk through) the duplicated header
line makes `text.find` return position 0 twice, so a chunk has
`end_index = start_index`, and another chunk's content is the stripped —
not raw — slice; and on " Methods\nabcdefghij" with cap 10, the oversize
section whose raw slice starts with whitespace yields a sub-chunk whose
content differs even from the stripped slice at its recorded offsets. -/
theorem chunk_offsets_counterexample :
    (¬ (∀ c ∈ splitLargeChunks 2000
          (createChunksFromSections (("Abstract\nAbstract\nMethods\nfoo").toList)
            (findSectionPositions (("Abstract\nAbstract\nMethods\nfoo").toList))),
        c.start_index < c.end_index ∧
        c.content = pySlice (("Abstract\nAbstract\nMethods\nfoo").toList)
          c.start_index c.end_index)) ∧
    (¬ (∀ c ∈ splitLargeChunks 10
          (createChunksFromSections ((" Methods\nabcdefghij").toList)
            (findSectionPositions ((" Methods\nabcdefghij").toList))),
        c.content = pyStrip (pySlice ((" Methods\nabcdefghij").toList)
          c.start_index c.end_index))) := by
  refine ⟨by decide, by decide⟩

/-! ## Fallback chunking and size filtering (C5, C6) -/

theorem pyStrip_eq_nil_iff (l : List Char) :
    pyStrip l = [] ↔ ∀ c ∈ l, pyIsSpace c = true := by
  unfold pyStrip
  constructor
  · intro h c hc
    rw [List.reverse_eq_nil_iff, List.dropWhile_eq_nil_iff] at h
    by_cases hcd : c ∈ l.dropWhile pyIsSpace
    · exact h c (List.mem_reverse.2 hcd)
    · have hsplit : l.takeWhile pyIsSpace ++ l.dropWhile pyIsSpace = l :=
        List.takeWhile_append_dropWhile pyIsSpace l
      rw [← hsplit] at hc
      rcases List.mem_append.1 hc with hc | hc
      · exact List.mem_takeWhile_imp hc
      · exact absurd hc hcd
  · intro h
    have h1 : l.dropWhile pyIsSpace = [] := List.dropWhile_eq_nil_iff.2 h
    rw [h1]
    rfl

theorem splitChunkLoopF_fields (maxSize : Nat) (hdr : List Char) (lvl si : Nat)
    (content : List Char) :
    ∀ (fuel cur : Nat), ∀ ch ∈ splitChunkLoopF maxSize hdr lvl si content cur fuel,
      ch.section_header = hdr ∧ ch.section_level = lvl := by
  intro fuel
  induction fuel with
  | zero => intro cur ch hch; cases hch
  | succ n ih =>
    intro cur ch hch
    simp only [splitChunkLoopF] at hch
    by_cases hc : cur < content.length
    · rw [if_pos hc] at hch
      by_cases hce : cur < computeEndPos content cur maxSize
      · rw [if_pos hce] at hch
        by_cases hsub : (pyStrip (pySlice content cur
            (computeEndPos content cur maxSize))).isEmpty = true
        · rw [if_pos hsub] at hch
          exact ih _ ch hch
        · rw [if_neg hsub] at hch
          rcases List.mem_cons.1 hch with rfl | hch
          · exact ⟨rfl, rfl⟩
          · exact ih _ ch hch
      · rw [if_neg hce] at hch
        cases hch
    · rw [if_neg hc] at hch
      cases hch

theorem splitChunkLoopF_eq_nil (maxSize : Nat) (hm : 1 ≤ maxSize) (hdr : List Char)
    (lvl si : Nat) (content : List Char) :
    ∀ (fuel cur : Nat), content.length ≤ cur + fuel →
      splitChunkLoopF maxSize hdr lvl si content cur fuel = [] →
      ∀ (j : Nat) (hj : j < content.length), cur ≤ j →
        pyIsSpace (content.get ⟨j, hj⟩) = true := by
  intro fuel
  induction fuel with
  | zero => intro cur hfc _ j hj hcj; omega
  | succ n ih =>
    intro cur hfc heq j hj hcj
    by_cases hc : cur < content.length
    · simp only [splitChunkLoopF] at heq
      rw [if_pos hc] at heq
      have hprog := (computeEndPos_progress_aux content cur maxSize hc hm).1
      have hce : cur < computeEndPos content cur maxSize := hprog.1
      have hel : computeEndPos content cur maxSize ≤ content.length := hprog.2
      rw [if_pos hce] at heq
      by_cases hsub : (pyStrip (pySlice content cur
          (computeEndPos content cur maxSize))).isEmpty = true
      · rw [if_pos hsub] at heq
        by_cases hje : j < computeEndPos content cur maxSize
        · have hall : ∀ ch ∈ pySlice content cur (computeEndPos content cur maxSize),
              pyIsSpace ch = true :=
            (pyStrip_eq_nil_iff _).1 (List.isEmpty_iff.1 hsub)
          apply hall
          have hlen2 : j - cur <
              (pySlice content cur (computeEndPos content cur maxSize)).length := by
            rw [pySlice_length]
            omega
          have hget : (pySlice content cur (computeEndPos content cur maxSize)).get
              ⟨j - cur, hlen2⟩ = content.get ⟨j, hj⟩ := by
            simp only [pySlice, List.get_eq_getElem, List.getElem_drop,
              List.getElem_take]
            congr 1
            omega
          rw [← hget]
          exact List.get_mem _ (j - cur) hlen2
        · exact ih (computeEndPos content cur maxSize) (by omega) heq j hj (by omega)
      · rw [if_neg hsub] at heq
        exact absurd heq (by simp)
    · omega

/-- C5 counterexample: the single-space text is non-empty and has no
detected section headers, yet `chunk_paper` returns the empty list (the
fallback loop strips the slice to nothing and emits no chunk). -/
theorem chunk_paper_fallback_counterexample :
    ((" ").toList ≠ []) ∧ findSectionPositions ((" ").toList) = [] ∧
    chunkPaper 2000 50 ((" ").toList) = [] := by
  decide

/-- C5 amended: for text containing at least one non-whitespace character
and no detected section headers, `chunk_paper` (with a positive maximum
chunk size) returns at least one chunk, every returned chunk carries the
sentinel header "Unknown Section" at level 1, and the empty text always
yields the empty chunk list. -/
theorem chunk_paper_fallback_spec (maxSize minSize : Nat) (text : List Char)
    (hm : 1 ≤ maxSize) (hsec : findSectionPositions text = [])
    (hch : ∃ c ∈ text, ¬ pyIsSpace c = true) :
    (chunkPaper maxSize minSize text ≠ [] ∧
     ∀ ch ∈ chunkPaper maxSize minSize text,
       ch.section_header = ("Unknown Section").toList ∧ ch.section_level = 1) ∧
    ∀ (m n : Nat), chunkPaper m n [] = [] := by
  refine ⟨?_, fun m n => rfl⟩
  obtain ⟨c, hcmem, hcsp⟩ := hch
  have htxtne : text ≠ [] := by
    rintro rfl
    cases hcmem
  have hemp : text.isEmpty = false := by
    simpa [List.isEmpty_iff] using htxtne
  have hpaper : chunkPaper maxSize minSize text = fallbackChunking maxSize text := by
    simp [chunkPaper, hemp, hsec]
  constructor
  · rw [hpaper]
    intro hnil
    obtain ⟨⟨i, hi⟩, hceq⟩ := List.mem_iff_get.1 hcmem
    have := splitChunkLoopF_eq_nil maxSize hm (("Unknown Section").toList) 1 0 text
      (text.length + 1) 0 (by omega) hnil i hi (by omega)
    rw [hceq] at this
    exact hcsp this
  · rw [hpaper]
    intro ch hch2
    exact splitChunkLoopF_fields maxSize _ 1 0 text (text.length + 1) 0 ch hch2

/-- Witness for the hypotheses of `chunk_paper_fallback_spec`. -/
theorem chunk_paper_fallback_witness :
    1 ≤ 2000 ∧ findSectionPositions (("hello").toList) = [] ∧
    (∃ c ∈ ("hello").toList, ¬ pyIsSpace c = true) ∧
    ((chunkPaper 2000 50 (("hello").toList) ≠ [] ∧
      ∀ ch ∈ chunkPaper 2000 50 (("hello").toList),
        ch.section_header = ("Unknown Section").toList ∧ ch.section_level = 1) ∧
     ∀ (m n : Nat), chunkPaper m n [] = []) :=
  ⟨by decide, by decide, by decide,
    chunk_paper_fallback_spec 2000 50 _ (by decide) (by decide) (by decide)⟩

/-- C6 counterexample: "hello" has no detected headers, so `chunk_paper`
takes the fallback path, which skips `_filter_tiny_chunks`: the returned
chunk has size 5, far below the configured minimum of 50. -/
theorem chunk_paper_min_size_counterexample :
    ¬ (∀ c ∈ chunkPaper 2000 50 (("hello").toList), 50 ≤ c.chunk_size) := by
  decide

/-- C6 amended: on the section path — at least one header detected — every
chunk returned by `chunk_paper` has `chunk_size ≥ min_chunk_size`, because
`_filter_tiny_chunks` runs last there; the fallback path skips the
filter. -/
theorem chunk_paper_min_size_section_path (maxSize minSize : Nat) (text : List Char)
    (hsec : findSectionPositions text ≠ []) :
    ∀ c ∈ chunkPaper maxSize minSize text, minSize ≤ c.chunk_size := by
  intro c hc
  by_cases hemp : text.isEmpty = true
  · rw [chunkPaper, if_pos hemp] at hc
    cases hc
  · have hsece : (findSectionPositions text).isEmpty = false := by
      simpa [List.isEmpty_iff] using hsec
    rw [chunkPaper, if_neg hemp] at hc
    simp only [hsece, Bool.false_eq_true, if_false] at hc
    have := List.of_mem_filter hc
    simpa using this

/-- Witness for the hypothesis of `chunk_paper_min_size_section_path`. -/
theorem chunk_paper_min_size_witness :
    findSectionPositions (("Abstract\nAbstract\nMethods\nfoo").toList) ≠ [] ∧
    ∀ c ∈ chunkPaper 2000 50 (("Abstract\nAbstract\nMethods\nfoo").toList),
      50 ≤ c.chunk_size :=
  ⟨by decide, chunk_paper_min_size_section_path 2000 50 _ (by decide)⟩

/-! ## Instantiation witnesses for the universally quantified theorems -/

/-- Witness instantiating `is_likely_header_iff`. -/
theorem is_likely_header_witness :
    isLikelyHeader (("Introduction").toList) = false ↔
      ((("Introduction").toList).length < 3 ∨
       100 < (("Introduction").toList).length ∨
       (∃ c, (("Introduction").toList).getLast? = some c ∧
          (c = '.' ∨ c = '!' ∨ c = '?')) ∨
       ((∃ w ∈ functionWords,
           isSubstring w (pyLower (("Introduction").toList)) = true) ∧
          ¬ ((("Introduction").toList).length < 30 ∧
             pyIsUpperStr (("Introduction").toList) = true))) :=
  is_likely_header_iff (("Introduction").toList)

/-- Witness instantiating `chunk_offsets_spec`. -/
theorem chunk_offsets_witness :
    List.Chain' (fun a b => a.end_index ≤ b.start_index)
      (splitLargeChunks 10
        (createChunksFromSections ((" Methods\nabcdefghij").toList)
          (findSectionPositions ((" Methods\nabcdefghij").toList)))) ∧
    ∀ c ∈ splitLargeChunks 10
        (createChunksFromSections ((" Methods\nabcdefghij").toList)
          (findSectionPositions ((" Methods\nabcdefghij").toList))),
      c.start_index ≤ c.end_index ∧ c.chunk_size = c.content.length ∧
      (c.content = pyStrip (pySlice ((" Methods\nabcdefghij").toList)
          c.start_index c.end_index) ∨
       ∃ p ∈ createChunksFromSections ((" Methods\nabcdefghij").toList)
           (findSectionPositions ((" Methods\nabcdefghij").toList)),
         10 < p.chunk_size ∧
         p.content = pyStrip (pySlice ((" Methods\nabcdefghij").toList)
           p.start_index p.end_index) ∧
         ∃ a b, a < b ∧ b ≤ p.content.length ∧
           c.start_index = p.start_index + a ∧
           c.end_index = p.start_index + b ∧
           c.content = pyStrip (pySlice p.content a b)) :=
  chunk_offsets_spec 10 ((" Methods\nabcdefghij").toList)

/-- Witness instantiating `score_chunks_by_relevance_spec`. -/
theorem score_chunks_witness :
    (∀ p ∈ scoreChunksByRelevance (("attention").toList)
        [⟨("Methods").toList, ("attention is useful").toList, 1, 19, 0⟩],
      0 ≤ p.2 ∧
      p.2 = max 0 ((if 3000 < p.1.chunk_size then (8 : ℚ)/10 else 1) *
        ((4/10) * (overlapCount (wordSet (("attention").toList))
            (pySplitWs (pyLower p.1.section_header)) : ℚ) +
         (1/100) * (overlapCount (wordSet (("attention").toList))
            (wordSet p.1.content) : ℚ) +
         (1/10) * ((max 0 (3 - (p.1.section_level : ℤ)) : ℤ) : ℚ)))) ∧
    (scoreChunksByRelevance (("attention").toList)
        [⟨("Methods").toList, ("attention is useful").toList, 1, 19, 0⟩]).map
      Prod.fst =
      [⟨("Methods").toList, ("attention is useful").toList, 1, 19, 0⟩] :=
  score_chunks_by_relevance_spec (("attention").toList)
    [⟨("Methods").toList, ("attention is useful").toList, 1, 19, 0⟩]

end Ragpipe
